import Mathlib

/-!
Verification of the audible-to-itunes splitting engine: a shallow
embedding of `src/audible_to_itunes/splitter.py`,
`processing_state.py`, `ffmpeg.py` and `file_utils.py`.
Durations are modelled as rationals; the Python literal `1.1` is
modelled as `11/10` and Python `int(x)` as truncation toward zero.
-/

namespace AudibleSplit

/-- A chapter as produced by `get_chapters_from_file`: a dict with keys
`Name`, `StartOffset` and `LengthInSeconds`; the length may be absent
(book-side defaulting `c.get("LengthInSeconds", 60)` supplies 60). -/
structure Chapter where
  name : String
  startOffset : ℚ
  length : Option ℚ
deriving DecidableEq

/-- One segment processed by the splitting loop in `perform_split`:
`start` is `current_start`, `stop` is `end_time`. -/
structure Segment where
  start : ℚ
  stop : ℚ
deriving DecidableEq

/-- `min(chapters, key=lambda c: abs(c.get("StartOffset", 0) - target_split))`:
Python `min` keeps the first element among ties, replacing the current
best only on a strictly smaller key. -/
def nearest (target : ℚ) : Chapter → List Chapter → Chapter
  | best, [] => best
  | best, c :: cs =>
    if |c.startOffset - target| < |best.startOffset - target| then nearest target c cs
    else nearest target best cs

/-- The choice of `end_time` in one iteration of the splitting loop
(`splitter.py` lines 168-184): tail-merge when less than 110% of the
limit remains, otherwise the chapter nearest to `target_split`, with
the progress guard forcing `target_split` when that cut is `<= pos`. -/
def chooseEnd (duration limit : ℚ) (chapters : List Chapter) (pos : ℚ) : ℚ :=
  if duration - pos < limit * (11/10) then duration
  else
    match chapters with
    | [] => pos + limit
    | c :: cs =>
      if (nearest (pos + limit) c cs).startOffset ≤ pos then pos + limit
      else (nearest (pos + limit) c cs).startOffset

/-- The `while current_start < duration` loop of `perform_split`
(`splitter.py` lines 153-342), as the sequence of
`(current_start, end_time)` pairs it processes.  `fuel` bounds the
number of iterations; `none` reports fuel exhaustion. -/
def splitLoop (duration limit : ℚ) (chapters : List Chapter) : Nat → ℚ → Option (List Segment)
  | 0, pos => if pos < duration then none else some []
  | fuel + 1, pos =>
    if pos < duration then
      match splitLoop duration limit chapters fuel (chooseEnd duration limit chapters pos) with
      | none => none
      | some segs => some (⟨pos, chooseEnd duration limit chapters pos⟩ :: segs)
    else some []

/-- Fuel sufficient for `splitLoop` to finish from position `pos`:
each iteration either consumes a chapter lying ahead of `pos` or
advances `pos` by at least `limit`. -/
def loopFuel (duration limit : ℚ) (chapters : List Chapter) (pos : ℚ) : Nat :=
  chapters.countP (fun c => decide (pos < c.startOffset))
    + (Int.ceil ((duration - pos) / limit)).toNat + 1

/-- The full plan computed by the splitting loop from position 0. -/
def planSegments (duration limit : ℚ) (chapters : List Chapter) : Option (List Segment) :=
  splitLoop duration limit chapters (loopFuel duration limit chapters 0) 0

/-- The inner `while` of `calc_actual_parts` (`splitter.py` lines
100-109): chapter-blind stepping by `limit` with the same tail-merge
test. -/
def calcPartsLoop (dur limit : ℚ) : Nat → ℚ → Nat
  | 0, _ => 0
  | fuel + 1, pos =>
    if pos < dur then
      if dur - pos < limit * (11/10) then 1
      else 1 + calcPartsLoop dur limit fuel (pos + limit)
    else 0

/-- `calc_actual_parts(dur, limit)` (`splitter.py` lines 99-110). -/
def calc_actual_parts (dur limit : ℚ) (fuel : Nat) : Nat :=
  max 1 (calcPartsLoop dur limit fuel 0)

/-! ### Helper lemmas about the splitting loop -/

theorem nearest_mem (target : ℚ) (c : Chapter) (cs : List Chapter) :
    nearest target c cs ∈ c :: cs := by
  induction cs generalizing c with
  | nil => simp [nearest]
  | cons d ds ih =>
    simp only [nearest]
    split
    · exact List.mem_cons_of_mem c (ih d)
    · rcases List.mem_cons.1 (ih c) with h | h
      · exact List.mem_cons.2 (Or.inl h)
      · exact List.mem_cons_of_mem c (List.mem_cons_of_mem d h)

theorem chooseEnd_of_tail (duration limit : ℚ) (chapters : List Chapter) (pos : ℚ)
    (h : duration - pos < limit * (11/10)) :
    chooseEnd duration limit chapters pos = duration := by
  unfold chooseEnd
  rw [if_pos h]

theorem chooseEnd_nil (duration limit : ℚ) (pos : ℚ)
    (h : ¬ duration - pos < limit * (11/10)) :
    chooseEnd duration limit [] pos = pos + limit := by
  unfold chooseEnd
  rw [if_neg h]

theorem chooseEnd_cons_guard (duration limit : ℚ) (c : Chapter) (cs : List Chapter) (pos : ℚ)
    (h1 : ¬ duration - pos < limit * (11/10))
    (h2 : (nearest (pos + limit) c cs).startOffset ≤ pos) :
    chooseEnd duration limit (c :: cs) pos = pos + limit := by
  unfold chooseEnd
  rw [if_neg h1]
  exact if_pos h2

theorem chooseEnd_cons_chapter (duration limit : ℚ) (c : Chapter) (cs : List Chapter) (pos : ℚ)
    (h1 : ¬ duration - pos < limit * (11/10))
    (h2 : ¬ (nearest (pos + limit) c cs).startOffset ≤ pos) :
    chooseEnd duration limit (c :: cs) pos = (nearest (pos + limit) c cs).startOffset := by
  unfold chooseEnd
  rw [if_neg h1]
  exact if_neg h2

theorem lt_chooseEnd (duration limit : ℚ) (chapters : List Chapter) (pos : ℚ)
    (hl : 0 < limit) (hpos : pos < duration) :
    pos < chooseEnd duration limit chapters pos := by
  by_cases htail : duration - pos < limit * (11/10)
  · rw [chooseEnd_of_tail duration limit chapters pos htail]
    exact hpos
  · cases chapters with
    | nil =>
      rw [chooseEnd_nil duration limit pos htail]
      linarith
    | cons c cs =>
      by_cases hguard : (nearest (pos + limit) c cs).startOffset ≤ pos
      · rw [chooseEnd_cons_guard duration limit c cs pos htail hguard]
        linarith
      · rw [chooseEnd_cons_chapter duration limit c cs pos htail hguard]
        exact lt_of_not_le hguard

theorem chooseEnd_cases (duration limit : ℚ) (chapters : List Chapter) (pos : ℚ) :
    chooseEnd duration limit chapters pos = duration ∨
      chooseEnd duration limit chapters pos = pos + limit ∨
      ∃ c ∈ chapters, chooseEnd duration limit chapters pos = c.startOffset := by
  by_cases htail : duration - pos < limit * (11/10)
  · exact Or.inl (chooseEnd_of_tail duration limit chapters pos htail)
  · cases chapters with
    | nil => exact Or.inr (Or.inl (chooseEnd_nil duration limit pos htail))
    | cons c cs =>
      by_cases hguard : (nearest (pos + limit) c cs).startOffset ≤ pos
      · exact Or.inr (Or.inl (chooseEnd_cons_guard duration limit c cs pos htail hguard))
      · exact Or.inr (Or.inr ⟨nearest (pos + limit) c cs, nearest_mem _ _ _,
          chooseEnd_cons_chapter duration limit c cs pos htail hguard⟩)

theorem chooseEnd_le (duration limit : ℚ) (chapters : List Chapter) (pos : ℚ)
    (hch : ∀ c ∈ chapters, c.startOffset ≤ duration) (hl : 0 < limit) :
    chooseEnd duration limit chapters pos ≤ duration := by
  have htarget : ¬ duration - pos < limit * (11/10) → pos + limit ≤ duration := by
    intro h
    push_neg at h
    nlinarith
  by_cases htail : duration - pos < limit * (11/10)
  · rw [chooseEnd_of_tail duration limit chapters pos htail]
  · cases chapters with
    | nil =>
      rw [chooseEnd_nil duration limit pos htail]
      exact htarget htail
    | cons c cs =>
      by_cases hguard : (nearest (pos + limit) c cs).startOffset ≤ pos
      · rw [chooseEnd_cons_guard duration limit c cs pos htail hguard]
        exact htarget htail
      · rw [chooseEnd_cons_chapter duration limit c cs pos htail hguard]
        exact hch _ (nearest_mem _ _ _)

theorem countP_lt_of_mem {α : Type} {p q : α → Bool} :
    ∀ {l : List α}, (∀ x ∈ l, p x = true → q x = true) →
      ∀ a ∈ l, q a = true → p a = false → l.countP p < l.countP q := by
  intro l
  induction l with
  | nil => intro _ a ha; exact absurd ha (List.not_mem_nil a)
  | cons b bs ih =>
    intro himp a ha hqa hpa
    have htail : bs.countP p ≤ bs.countP q :=
      List.countP_mono_left fun x hx => himp x (List.mem_cons_of_mem b hx)
    rw [List.countP_cons, List.countP_cons]
    rcases List.mem_cons.1 ha with rfl | ha
    · simp only [hpa, hqa]
      simp
      omega
    · have hlt := ih (fun x hx => himp x (List.mem_cons_of_mem b hx)) a ha hqa hpa
      have hhead : (if p b = true then (1 : Nat) else 0) ≤ (if q b = true then 1 else 0) := by
        by_cases hb : p b = true
        · simp [hb, himp b (List.mem_cons_self b bs) hb]
        · simp [hb]
      omega

theorem loopFuel_pos (duration limit : ℚ) (chapters : List Chapter) (pos : ℚ) :
    0 < loopFuel duration limit chapters pos := by
  unfold loopFuel
  omega

theorem loopFuel_target (duration limit : ℚ) (chapters : List Chapter) (pos : ℚ)
    (hl : 0 < limit) (h : ¬ duration - pos < limit * (11/10)) :
    loopFuel duration limit chapters (pos + limit) < loopFuel duration limit chapters pos := by
  push_neg at h
  unfold loopFuel
  have hcount : chapters.countP (fun c => decide (pos + limit < c.startOffset))
      ≤ chapters.countP (fun c => decide (pos < c.startOffset)) := by
    refine List.countP_mono_left fun c _ hc => ?_
    simp only [decide_eq_true_eq] at hc ⊢
    linarith
  have harg : (duration - (pos + limit)) / limit = (duration - pos) / limit - 1 := by
    field_simp
    ring
  have hceil : Int.ceil ((duration - (pos + limit)) / limit)
      = Int.ceil ((duration - pos) / limit) - 1 := by
    rw [harg, Int.ceil_sub_one]
  have hbig : 2 ≤ Int.ceil ((duration - pos) / limit) := by
    have h1 : (1 : ℚ) < (duration - pos) / limit := by
      rw [lt_div_iff₀ hl]
      nlinarith
    have := Int.lt_ceil.2 (show ((1 : ℤ) : ℚ) < (duration - pos) / limit by exact_mod_cast h1)
    omega
  rw [hceil]
  omega

theorem loopFuel_decreasing (duration limit : ℚ) (chapters : List Chapter) (pos : ℚ)
    (hl : 0 < limit) (hpos : pos < duration) :
    loopFuel duration limit chapters (chooseEnd duration limit chapters pos)
      < loopFuel duration limit chapters pos := by
  by_cases htail : duration - pos < limit * (11/10)
  · rw [chooseEnd_of_tail duration limit chapters pos htail]
    unfold loopFuel
    have hcount : chapters.countP (fun c => decide (duration < c.startOffset))
        ≤ chapters.countP (fun c => decide (pos < c.startOffset)) := by
      refine List.countP_mono_left fun c _ hc => ?_
      simp only [decide_eq_true_eq] at hc ⊢
      linarith
    have hceil0 : Int.ceil ((duration - duration) / limit) = 0 := by
      simp
    have hceil1 : 1 ≤ Int.ceil ((duration - pos) / limit) :=
      Int.ceil_pos.2 (div_pos (by linarith) hl)
    rw [hceil0]
    omega
  · cases chapters with
    | nil =>
      rw [chooseEnd_nil duration limit pos htail]
      exact loopFuel_target duration limit [] pos hl htail
    | cons c cs =>
      by_cases hguard : (nearest (pos + limit) c cs).startOffset ≤ pos
      · rw [chooseEnd_cons_guard duration limit c cs pos htail hguard]
        exact loopFuel_target duration limit (c :: cs) pos hl htail
      · rw [chooseEnd_cons_chapter duration limit c cs pos htail hguard]
        push_neg at hguard
        unfold loopFuel
        have hcount : (c :: cs).countP
              (fun x => decide ((nearest (pos + limit) c cs).startOffset < x.startOffset))
            < (c :: cs).countP (fun x => decide (pos < x.startOffset)) := by
          refine countP_lt_of_mem ?_ (nearest (pos + limit) c cs) (nearest_mem _ _ _) ?_ ?_
          · intro x _ hx
            simp only [decide_eq_true_eq] at hx ⊢
            linarith
          · simp only [decide_eq_true_eq]
            exact hguard
          · simp
        have hceil : Int.ceil ((duration - (nearest (pos + limit) c cs).startOffset) / limit)
            ≤ Int.ceil ((duration - pos) / limit) := by
          refine Int.ceil_le_ceil ?_
          have hnum : duration - (nearest (pos + limit) c cs).startOffset ≤ duration - pos := by
            linarith
          exact div_le_div_of_nonneg_right hnum hl.le
        omega

theorem splitLoop_stop (duration limit : ℚ) (chapters : List Chapter) (pos : ℚ)
    (h : ¬ pos < duration) (fuel : Nat) :
    splitLoop duration limit chapters fuel pos = some [] := by
  cases fuel <;> simp [splitLoop, h]

theorem splitLoop_isSome (duration limit : ℚ) (chapters : List Chapter) (hl : 0 < limit) :
    ∀ fuel pos, loopFuel duration limit chapters pos ≤ fuel →
      (splitLoop duration limit chapters fuel pos).isSome := by
  intro fuel
  induction fuel with
  | zero =>
    intro pos h
    exact absurd h (by have := loopFuel_pos duration limit chapters pos; omega)
  | succ n ih =>
    intro pos h
    by_cases hpos : pos < duration
    · have hdec := loopFuel_decreasing duration limit chapters pos hl hpos
      have hrec := ih (chooseEnd duration limit chapters pos) (by omega)
      obtain ⟨segs, hsegs⟩ := Option.isSome_iff_exists.1 hrec
      simp [splitLoop, hpos, hsegs]
    · simp [splitLoop, hpos]

/-- Loop invariants of the splitting loop: whenever the loop finishes
within its fuel, the emitted segments start at the initial position,
are contiguous, have positive length, end at or beyond the duration,
and every cut is the duration, the target `pos + limit`, or a chapter
start offset (bounded by the duration when all chapters are). -/
theorem splitLoop_sound (duration limit : ℚ) (chapters : List Chapter) (hl : 0 < limit) :
    ∀ fuel (pos : ℚ) (segs : List Segment),
      splitLoop duration limit chapters fuel pos = some segs →
      (pos < duration → segs ≠ []) ∧
      (∀ s, segs.head? = some s → s.start = pos) ∧
      List.Chain' (fun a b => a.stop = b.start) segs ∧
      (∀ s ∈ segs, s.start < s.stop) ∧
      (∀ s, segs.getLast? = some s → duration ≤ s.stop) ∧
      (∀ s ∈ segs, s.stop = duration ∨ s.stop = s.start + limit ∨
        ∃ c ∈ chapters, s.stop = c.startOffset) ∧
      ((∀ c ∈ chapters, c.startOffset ≤ duration) → ∀ s ∈ segs, s.stop ≤ duration) := by
  intro fuel
  induction fuel with
  | zero =>
    intro pos segs h
    by_cases hpos : pos < duration
    · simp [splitLoop, hpos] at h
    · simp only [splitLoop, if_neg hpos, Option.some.injEq] at h
      subst h
      exact ⟨fun h' => absurd h' hpos, by simp, by simp, by simp, by simp, by simp, by simp⟩
  | succ n ih =>
    intro pos segs h
    by_cases hpos : pos < duration
    · simp only [splitLoop, if_pos hpos] at h
      cases hrec : splitLoop duration limit chapters n (chooseEnd duration limit chapters pos) with
      | none => rw [hrec] at h; simp at h
      | some rest =>
        rw [hrec] at h
        simp only [Option.some.injEq] at h
        subst h
        obtain ⟨ih1, ih2, ih3, ih4, ih5, ih6, ih7⟩ := ih _ _ hrec
        refine ⟨fun _ => by simp, ?_, ?_, ?_, ?_, ?_, ?_⟩
        · intro s hs
          simp only [List.head?_cons, Option.some.injEq] at hs
          subst hs
          rfl
        · refine List.chain'_cons'.2 ⟨?_, ih3⟩
          intro y hy
          exact (ih2 y (Option.mem_def.1 hy)).symm
        · intro s hs
          rcases List.mem_cons.1 hs with rfl | hs
          · exact lt_chooseEnd duration limit chapters pos hl hpos
          · exact ih4 s hs
        · intro s hs
          cases rest with
          | nil =>
            simp only [List.getLast?_singleton, Option.some.injEq] at hs
            subst hs
            have hnot : ¬ chooseEnd duration limit chapters pos < duration :=
              fun hc => (ih1 hc) rfl
            exact le_of_not_lt hnot
          | cons t ts =>
            rw [List.getLast?_cons_cons] at hs
            exact ih5 s hs
        · intro s hs
          rcases List.mem_cons.1 hs with rfl | hs
          · exact chooseEnd_cases duration limit chapters pos
          · exact ih6 s hs
        · intro hch s hs
          rcases List.mem_cons.1 hs with rfl | hs
          · exact chooseEnd_le duration limit chapters pos hch hl
          · exact ih7 hch s hs
    · simp only [splitLoop, if_neg hpos, Option.some.injEq] at h
      subst h
      exact ⟨fun h' => absurd h' hpos, by simp, by simp, by simp, by simp, by simp, by simp⟩

/-! ### Claim theorems for the partition planner -/

/-- C1 (amended): for every `totalDuration > 0`, `splitLimit > 0`, and
chapter list whose start offsets are at most `totalDuration`, the
splitting loop terminates and its segments are nonempty, contiguous and
non-overlapping, start at 0, and end exactly at `totalDuration`; every
segment's end is the duration, its own start plus `splitLimit`, or a
chapter start offset — so only chapter-aligned cuts can make a non-tail
segment longer than `splitLimit * 1.1`. -/
theorem C1_partition_coverage (duration limit : ℚ) (chapters : List Chapter)
    (hd : 0 < duration) (hl : 0 < limit)
    (hch : ∀ c ∈ chapters, c.startOffset ≤ duration) :
    ∃ segs, planSegments duration limit chapters = some segs ∧
      segs ≠ [] ∧
      segs.head?.map Segment.start = some 0 ∧
      List.Chain' (fun a b => a.stop = b.start) segs ∧
      (∀ s ∈ segs, s.start < s.stop) ∧
      segs.getLast?.map Segment.stop = some duration ∧
      (∀ s ∈ segs, s.stop = duration ∨ s.stop = s.start + limit ∨
        ∃ c ∈ chapters, s.stop = c.startOffset) := by
  obtain ⟨segs, hsegs⟩ := Option.isSome_iff_exists.1
    (splitLoop_isSome duration limit chapters hl (loopFuel duration limit chapters 0) 0 le_rfl)
  obtain ⟨h1, h2, h3, h4, h5, h6, h7⟩ :=
    splitLoop_sound duration limit chapters hl _ 0 segs hsegs
  have hne : segs ≠ [] := h1 hd
  refine ⟨segs, hsegs, hne, ?_, h3, h4, ?_, h6⟩
  · cases segs with
    | nil => exact absurd rfl hne
    | cons a l => simp [h2 a rfl]
  · obtain ⟨x, hx⟩ : ∃ x, segs.getLast? = some x := by
      cases segs with
      | nil => exact absurd rfl hne
      | cons a l => exact ⟨(a :: l).getLast (by simp), List.getLast?_eq_getLast_of_ne_nil (by simp)⟩
    obtain ⟨hxne, hxeq⟩ := List.mem_getLast?_eq_getLast (Option.mem_def.2 hx)
    have hmemx : x ∈ segs := hxeq ▸ List.getLast_mem hxne
    have hd1 : duration ≤ x.stop := h5 x hx
    have hd2 : x.stop ≤ duration := h7 hch x hmemx
    rw [hx]
    simp [le_antisymm hd2 hd1]

/-- Witness for C1 at the spec fixture: duration 80000, limit 36000,
chapters at 0, 36000 and 72000. -/
theorem C1_partition_coverage_witness :
    (0:ℚ) < 80000 ∧ (0:ℚ) < 36000 ∧
      (∀ c ∈ ([⟨"c1", 0, none⟩, ⟨"c2", 36000, none⟩, ⟨"c3", 72000, none⟩] : List Chapter),
        c.startOffset ≤ (80000:ℚ)) ∧
      (∃ segs, planSegments 80000 36000
          ([⟨"c1", 0, none⟩, ⟨"c2", 36000, none⟩, ⟨"c3", 72000, none⟩] : List Chapter)
          = some segs ∧
        segs ≠ [] ∧
        segs.head?.map Segment.start = some 0 ∧
        List.Chain' (fun a b => a.stop = b.start) segs ∧
        (∀ s ∈ segs, s.start < s.stop) ∧
        segs.getLast?.map Segment.stop = some 80000 ∧
        (∀ s ∈ segs, s.stop = 80000 ∨ s.stop = s.start + 36000 ∨
          ∃ c ∈ ([⟨"c1", 0, none⟩, ⟨"c2", 36000, none⟩, ⟨"c3", 72000, none⟩] : List Chapter),
            s.stop = c.startOffset)) := by
  have hch : ∀ c ∈ ([⟨"c1", 0, none⟩, ⟨"c2", 36000, none⟩, ⟨"c3", 72000, none⟩] : List Chapter),
      c.startOffset ≤ (80000:ℚ) := by
    intro c hc
    fin_cases hc <;> norm_num
  exact ⟨by norm_num, by norm_num, hch,
    C1_partition_coverage 80000 36000 _ (by norm_num) (by norm_num) hch⟩

/-- Counterexample to C1 as stated: with duration 100 and limit 10, a
chapter list with offsets 15 and 150 yields a first segment of length
15 (exceeding `splitLimit * 1.1 = 11` although it is not the final
segment) and a final segment ending at 150, not at the duration 100. -/
theorem C1_counterexample :
    planSegments 100 10 ([⟨"a", 15, none⟩, ⟨"b", 150, none⟩] : List Chapter)
      = some [⟨0, 15⟩, ⟨15, 25⟩, ⟨25, 35⟩, ⟨35, 45⟩, ⟨45, 55⟩, ⟨55, 65⟩, ⟨65, 75⟩, ⟨75, 150⟩]
      ∧ ¬ ((15:ℚ) - 0 ≤ 10 * (11/10)) ∧ ((150:ℚ) ≠ 100) := by
  refine ⟨?_, by norm_num, by norm_num⟩
  have hf : loopFuel 100 10 ([⟨"a", 15, none⟩, ⟨"b", 150, none⟩] : List Chapter) 0 = 13 := by
    unfold loopFuel
    rw [show ((100:ℚ) - 0) / 10 = 10 by norm_num]
    rw [show Int.ceil ((10:ℚ)) = 10 by rw [Int.ceil_eq_iff] <;> norm_num]
    norm_num [List.countP_cons]
    decide
  unfold planSegments
  rw [hf]
  norm_num [splitLoop, chooseEnd, nearest]

/-- C2: the chapter-blind `calc_actual_parts` disagrees with the
chapter-aware splitting loop: at duration 100, limit 40 and a single
chapter at offset 60, the counter predicts 3 parts but the loop
produces 2 segments. -/
theorem C2_count_mismatch :
    calc_actual_parts 100 40 10 = 3 ∧
      planSegments 100 40 ([⟨"a", 60, none⟩] : List Chapter)
        = some [⟨0, 60⟩, ⟨60, 100⟩] := by
  constructor
  · norm_num [calc_actual_parts, calcPartsLoop]
  · have hf : loopFuel 100 40 ([⟨"a", 60, none⟩] : List Chapter) 0 = 5 := by
      unfold loopFuel
      rw [show ((100:ℚ) - 0) / 40 = 5/2 by norm_num]
      rw [show Int.ceil ((5:ℚ)/2) = 3 by rw [Int.ceil_eq_iff] <;> norm_num]
      norm_num [List.countP_cons]
      decide
    unfold planSegments
    rw [hf]
    norm_num [splitLoop, chooseEnd, nearest]

/-- C5 (confirmed): at any step of the splitting loop with `pos <
duration`, if less than `splitLimit * 1.1` remains, the remainder is
emitted as exactly one final segment ending at the duration and the
loop stops. -/
theorem C5_tail_merge (duration limit : ℚ) (chapters : List Chapter) (pos : ℚ) (fuel : Nat)
    (hpos : pos < duration) (htail : duration - pos < limit * (11/10)) :
    splitLoop duration limit chapters (fuel + 1) pos = some [⟨pos, duration⟩] := by
  have he := chooseEnd_of_tail duration limit chapters pos htail
  simp [splitLoop, if_pos hpos, he,
    splitLoop_stop duration limit chapters duration (lt_irrefl duration) fuel]

/-- Witness for C5 at duration 10, limit 19/2, no chapters. -/
theorem C5_tail_merge_witness :
    (0:ℚ) < 10 ∧ (10:ℚ) - 0 < (19/2) * (11/10) ∧
      splitLoop 10 (19/2) [] 1 0 = some [⟨0, 10⟩] :=
  ⟨by norm_num, by norm_num, C5_tail_merge 10 (19/2) [] 0 0 (by norm_num) (by norm_num)⟩

/-- C6 (confirmed): with `0 < limit` and `pos < duration`, the progress
guard forces the cut to `pos + limit` whenever the nearest chapter's
offset is `≤ pos`, every iteration strictly increases the position, and
the loop terminates within the explicit fuel bound `loopFuel`. -/
theorem C6_progress_guard_termination (duration limit : ℚ) (chapters : List Chapter) (pos : ℚ)
    (hl : 0 < limit) (hpos : pos < duration) :
    (∀ c cs, chapters = c :: cs → ¬ duration - pos < limit * (11/10) →
      (nearest (pos + limit) c cs).startOffset ≤ pos →
      chooseEnd duration limit chapters pos = pos + limit) ∧
    pos < chooseEnd duration limit chapters pos ∧
    (splitLoop duration limit chapters (loopFuel duration limit chapters pos) pos).isSome := by
  refine ⟨?_, lt_chooseEnd duration limit chapters pos hl hpos,
    splitLoop_isSome duration limit chapters hl _ pos le_rfl⟩
  intro c cs hcc htail hguard
  subst hcc
  exact chooseEnd_cons_guard duration limit c cs pos htail hguard

/-- Witness for C6 with a pathological chapter at offset 0. -/
theorem C6_progress_guard_termination_witness :
    (0:ℚ) < 10 ∧ (0:ℚ) < 100 ∧
      ((∀ c cs, ([⟨"p", 0, none⟩] : List Chapter) = c :: cs →
          ¬ (100:ℚ) - 0 < 10 * (11/10) →
          (nearest (0 + 10) c cs).startOffset ≤ 0 →
          chooseEnd 100 10 ([⟨"p", 0, none⟩] : List Chapter) 0 = 0 + 10) ∧
        (0:ℚ) < chooseEnd 100 10 ([⟨"p", 0, none⟩] : List Chapter) 0 ∧
        (splitLoop 100 10 ([⟨"p", 0, none⟩] : List Chapter)
          (loopFuel 100 10 ([⟨"p", 0, none⟩] : List Chapter) 0) 0).isSome) :=
  ⟨by norm_num, by norm_num,
    C6_progress_guard_termination 100 10 ([⟨"p", 0, none⟩] : List Chapter) 0
      (by norm_num) (by norm_num)⟩

/-! ### The lifecycle tracker (`processing_state.py`) -/

/-- The list-valued fields of `ProcessingState`
(`processing_state.py` lines 13-18); the subprocess handle is out of
scope here. -/
structure ProcessingState where
  stop_requested : Bool
  current_book_title : Option String
  current_book_files : List String
  in_progress_files : List String
deriving DecidableEq

/-- `ProcessingState.__init__`. -/
def initState : ProcessingState := ⟨false, none, [], []⟩

/-- `start_book(title)` (lines 23-26). -/
def start_book (s : ProcessingState) (title : String) : ProcessingState :=
  { s with current_book_title := some title, current_book_files := [],
           in_progress_files := [] }

/-- `add_file(filepath)` (lines 28-33): unconditionally append to the
completed list; remove the first occurrence from in-progress when
present. -/
def add_file (s : ProcessingState) (filepath : String) : ProcessingState :=
  { s with
    current_book_files := s.current_book_files ++ [filepath],
    in_progress_files :=
      if filepath ∈ s.in_progress_files then s.in_progress_files.erase filepath
      else s.in_progress_files }

/-- `start_file(filepath)` (lines 35-38): add to in-progress when not
already tracked. -/
def start_file (s : ProcessingState) (filepath : String) : ProcessingState :=
  if filepath ∈ s.in_progress_files then s
  else { s with in_progress_files := s.in_progress_files ++ [filepath] }

/-- `finish_file(filepath)` (lines 40-43): drop from in-progress. -/
def finish_file (s : ProcessingState) (filepath : String) : ProcessingState :=
  if filepath ∈ s.in_progress_files then
    { s with in_progress_files := s.in_progress_files.erase filepath }
  else s

/-- `cleanup_in_progress()` (lines 62-71); on-disk deletion is outside
the model, the tracked list is cleared. -/
def cleanup_in_progress (s : ProcessingState) : ProcessingState :=
  { s with in_progress_files := [] }

/-- `cleanup_current_book()` (lines 73-90). -/
def cleanup_current_book (s : ProcessingState) : ProcessingState :=
  { cleanup_in_progress s with current_book_files := [] }

/-- The tracker operations named in the claim. -/
inductive TrackerOp where
  | startBook (title : String)
  | startFile (path : String)
  | addFile (path : String)
  | finishFile (path : String)
  | cleanupInProgress
  | cleanupCurrentBook
deriving DecidableEq

/-- Apply one tracker operation. -/
def applyOp (s : ProcessingState) : TrackerOp → ProcessingState
  | .startBook t => start_book s t
  | .startFile p => start_file s p
  | .addFile p => add_file s p
  | .finishFile p => finish_file s p
  | .cleanupInProgress => cleanup_in_progress s
  | .cleanupCurrentBook => cleanup_current_book s

/-- Run a sequence of tracker operations from the initial state. -/
def runOps (ops : List TrackerOp) : ProcessingState :=
  ops.foldl applyOp initState

/-- The disjointness invariant of the spec, strengthened with the
no-duplicates property that reachable in-progress lists satisfy. -/
def TrackerInv (s : ProcessingState) : Prop :=
  s.in_progress_files.Nodup ∧
    ∀ p, p ∈ s.in_progress_files → p ∉ s.current_book_files

/-- A step is safe when `start_file` is not invoked on a path already
in the completed list. -/
def SafeStep (s : ProcessingState) : TrackerOp → Prop
  | .startFile p => p ∉ s.current_book_files
  | _ => True

/-- Counterexample to C3 as stated: `add_file` is not idempotent
(committing "a" twice duplicates it in the completed list) and is not a
no-op when the path is not in the in-progress set. -/
theorem C3_counterexample :
    add_file (add_file initState "a") "a" ≠ add_file initState "a" ∧
      add_file initState "a" ≠ initState := by
  constructor <;> decide

/-- C3 (amended): `add_file` always appends the path to the completed
sequence — so it is not idempotent there and not a no-op on untracked
paths — while on the in-progress set it removes the path, is a no-op
when the path is absent, and (for duplicate-free in-progress lists) is
idempotent. -/
theorem C3_add_file (s : ProcessingState) (p : String)
    (hnd : s.in_progress_files.Nodup) :
    (add_file s p).current_book_files = s.current_book_files ++ [p] ∧
    (add_file s p).in_progress_files = s.in_progress_files.erase p ∧
    (p ∉ s.in_progress_files → (add_file s p).in_progress_files = s.in_progress_files) ∧
    (add_file (add_file s p) p).in_progress_files = (add_file s p).in_progress_files ∧
    (add_file (add_file s p) p).current_book_files = s.current_book_files ++ [p] ++ [p] := by
  have herase : ∀ t : ProcessingState, (add_file t p).in_progress_files
      = t.in_progress_files.erase p := by
    intro t
    simp only [add_file]
    split
    · rfl
    · rename_i h
      rw [List.erase_of_not_mem h]
  refine ⟨rfl, herase s, ?_, ?_, rfl⟩
  · intro hp
    rw [herase s, List.erase_of_not_mem hp]
  · rw [herase (add_file s p), herase s]
    refine List.erase_of_not_mem ?_
    intro hmem
    exact absurd rfl ((hnd.mem_erase_iff.1 hmem).1)

/-- Witness for C3 at the initial state and path "a". -/
theorem C3_add_file_witness :
    initState.in_progress_files.Nodup ∧
      (add_file initState "a").current_book_files = initState.current_book_files ++ ["a"] ∧
      (add_file initState "a").in_progress_files = initState.in_progress_files.erase "a" ∧
      ("a" ∉ initState.in_progress_files →
        (add_file initState "a").in_progress_files = initState.in_progress_files) ∧
      (add_file (add_file initState "a") "a").in_progress_files
        = (add_file initState "a").in_progress_files ∧
      (add_file (add_file initState "a") "a").current_book_files
        = initState.current_book_files ++ ["a"] ++ ["a"] :=
  ⟨by simp [initState], C3_add_file initState "a" (by simp [initState])⟩

/-- Counterexample to C4 as stated: committing a path and then calling
`start_file` on it again puts it in both collections at once. -/
theorem C4_counterexample :
    "a" ∈ (runOps [TrackerOp.addFile "a", TrackerOp.startFile "a"]).in_progress_files ∧
      "a" ∈ (runOps [TrackerOp.addFile "a", TrackerOp.startFile "a"]).current_book_files := by
  constructor <;> decide

/-- C4 (amended): the disjointness invariant (with duplicate-freeness
of in-progress) holds initially and is preserved by every tracker
operation, provided `start_file` is never invoked on an
already-committed path — the unrestricted claim fails, see the
counterexample. -/
theorem C4_invariant_preserved (s : ProcessingState) (op : TrackerOp)
    (hinv : TrackerInv s) (hsafe : SafeStep s op) :
    TrackerInv initState ∧ TrackerInv (applyOp s op) := by
  obtain ⟨hnd, hdisj⟩ := hinv
  refine ⟨⟨by simp [initState], by simp [initState]⟩, ?_⟩
  cases op with
  | startBook t =>
    exact ⟨by simp [applyOp, start_book], by simp [applyOp, start_book]⟩
  | startFile p =>
    simp only [SafeStep] at hsafe
    simp only [TrackerInv, applyOp, start_file]
    split
    · exact ⟨hnd, hdisj⟩
    · rename_i hmem
      constructor
      · simp [List.nodup_append, hnd, hmem]
      · intro q hq
        rcases List.mem_append.1 hq with hq | hq
        · exact hdisj q hq
        · rw [List.mem_singleton] at hq
          subst hq
          exact hsafe
  | addFile p =>
    simp only [TrackerInv, applyOp, add_file]
    constructor
    · split
      · exact hnd.erase p
      · exact hnd
    · intro q hq
      have hqmem : q ∈ s.in_progress_files ∧ q ≠ p := by
        by_cases hp : p ∈ s.in_progress_files
        · rw [if_pos hp] at hq
          have h := hnd.mem_erase_iff.1 hq
          exact ⟨h.2, h.1⟩
        · rw [if_neg hp] at hq
          exact ⟨hq, fun h => hp (h ▸ hq)⟩
      simp only [List.mem_append, List.mem_singleton]
      push_neg
      exact ⟨hdisj q hqmem.1, hqmem.2⟩
  | finishFile p =>
    simp only [TrackerInv, applyOp, finish_file]
    split
    · exact ⟨hnd.erase p, fun q hq => hdisj q (List.mem_of_mem_erase hq)⟩
    · exact ⟨hnd, hdisj⟩
  | cleanupInProgress =>
    exact ⟨by simp [applyOp, cleanup_in_progress], by simp [applyOp, cleanup_in_progress]⟩
  | cleanupCurrentBook =>
    exact ⟨by simp [applyOp, cleanup_current_book, cleanup_in_progress],
      by simp [applyOp, cleanup_current_book, cleanup_in_progress]⟩

/-- Witness for C4 at the initial state and `start_file "a"`. -/
theorem C4_invariant_preserved_witness :
    TrackerInv initState ∧ SafeStep initState (TrackerOp.startFile "a") ∧
      (TrackerInv initState ∧ TrackerInv (applyOp initState (TrackerOp.startFile "a"))) := by
  have h1 : TrackerInv initState := ⟨by simp [initState], by simp [initState]⟩
  have h2 : SafeStep initState (TrackerOp.startFile "a") := by simp [SafeStep, initState]
  exact ⟨h1, h2, C4_invariant_preserved initState (TrackerOp.startFile "a") h1 h2⟩

/-! ### Author resolution (`splitter.py` lines 237-247) -/

/-- A JSON author field value: either a string or a list of strings. -/
inductive AuthorField where
  | str (s : String)
  | list (l : List String)
deriving DecidableEq

/-- The author fields of a catalog record. -/
structure Book where
  authorNames : Option AuthorField
  author : Option String
deriving DecidableEq

/-- Python truthiness of `book.get("AuthorNames")`: `None`, `""` and
`[]` are falsy. -/
def truthyAuthorNames : Option AuthorField → Bool
  | none => false
  | some (.str s) => !s.isEmpty
  | some (.list l) => !l.isEmpty

/-- `book["AuthorNames"][0] if isinstance(book["AuthorNames"], list)
else book["AuthorNames"]`; the `headD` default is unreachable because
the guard is Python truthiness. -/
def authorNamesValue : AuthorField → String
  | .str s => s
  | .list l => l.headD ""

/-- Python truthiness of `book.get("Author")`. -/
def truthyAuthor : Option String → Bool
  | none => false
  | some a => !a.isEmpty

/-- The artist-resolution block of `perform_split`:
start from `"Unknown"`, use `AuthorNames` when truthy, else `Author`
when truthy. -/
def resolveAuthor (b : Book) : String :=
  if truthyAuthorNames b.authorNames then
    match b.authorNames with
    | some v => authorNamesValue v
    | none => "Unknown"
  else if truthyAuthor b.author then b.author.getD "Unknown"
  else "Unknown"

/-- The claim's resolution rule stated from the spec's words: first
element of `AuthorNames` when it is a list, `AuthorNames` itself when a
scalar string, else the `Author` field when present, else
`"Unknown"`. -/
def resolveAuthorSpec (b : Book) : String :=
  match b.authorNames with
  | some (.list l) => l.headD ""
  | some (.str s) => s
  | none =>
    match b.author with
    | some a => a
    | none => "Unknown"

/-- Counterexample to C7 as stated: with `AuthorNames = ""` (a scalar
string) and `Author = "B"`, the code resolves the artist to `"B"` via
Python truthiness, not to the scalar `AuthorNames` value `""`. -/
theorem C7_counterexample :
    resolveAuthor ⟨some (.str ""), some "B"⟩ = "B" ∧
      resolveAuthorSpec ⟨some (.str ""), some "B"⟩ = "" ∧ ("B" : String) ≠ "" := by
  refine ⟨?_, rfl, by decide⟩
  rfl

/-- C7 (amended): the artist is the first element of `AuthorNames` when
it is a non-empty list, `AuthorNames` itself when it is a non-empty
string, else the `Author` field when present and non-empty, else
`"Unknown"` (an empty string or empty list `AuthorNames` is falsy in
Python and falls through). -/
theorem C7_author_resolution (b : Book) :
    (∀ a l, b.authorNames = some (.list (a :: l)) → resolveAuthor b = a) ∧
    (∀ s, b.authorNames = some (.str s) → s ≠ "" → resolveAuthor b = s) ∧
    ((b.authorNames = none ∨ b.authorNames = some (.str "") ∨
        b.authorNames = some (.list [])) →
      ∀ a, b.author = some a → a ≠ "" → resolveAuthor b = a) ∧
    ((b.authorNames = none ∨ b.authorNames = some (.str "") ∨
        b.authorNames = some (.list [])) →
      (b.author = none ∨ b.author = some "") → resolveAuthor b = "Unknown") := by
  refine ⟨?_, ?_, ?_, ?_⟩
  · intro a l h
    simp [resolveAuthor, h, truthyAuthorNames, authorNamesValue]
  · intro s h hs
    simp [resolveAuthor, h, truthyAuthorNames, authorNamesValue, String.isEmpty_iff, hs]
  · intro hfalsy a ha hane
    have hfalse : truthyAuthorNames b.authorNames = false := by
      rcases hfalsy with h | h | h <;> simp [h, truthyAuthorNames, String.isEmpty_iff]
    simp [resolveAuthor, hfalse, ha, truthyAuthor, String.isEmpty_iff, hane]
  · intro hfalsy hauth
    have hfalse : truthyAuthorNames b.authorNames = false := by
      rcases hfalsy with h | h | h <;> simp [h, truthyAuthorNames, String.isEmpty_iff]
    rcases hauth with h | h <;>
      simp [resolveAuthor, hfalse, h, truthyAuthor, String.isEmpty_iff]

/-- Witness for C7 on the three spec fixtures. -/
theorem C7_author_resolution_witness :
    resolveAuthor ⟨some (.list ["A", "B"]), none⟩ = "A" ∧
      resolveAuthor ⟨some (.str "C"), none⟩ = "C" ∧
      resolveAuthor ⟨none, none⟩ = "Unknown" :=
  ⟨(C7_author_resolution ⟨some (.list ["A", "B"]), none⟩).1 "A" ["B"] rfl,
    (C7_author_resolution ⟨some (.str "C"), none⟩).2.1 "C" rfl (by decide),
    (C7_author_resolution ⟨none, none⟩).2.2.2 (Or.inl rfl) (Or.inl rfl)⟩

/-! ### Chapter metadata synthesis (`splitter.py` lines 250-266) -/

/-- Python `int(x)`: truncation toward zero. -/
def pyInt (q : ℚ) : ℤ := if q < 0 then Int.ceil q else Int.floor q

/-- The `(START, END)` values written for one chapter of a part:
`c_start_ms = int((StartOffset - current_start) * 1000)`,
`c_length_ms = int(LengthInSeconds * 1000)` with a missing length
defaulting to 60, `START = max(0, c_start_ms)`,
`END = c_start_ms + c_length_ms`. -/
def chapterEntry (segStart : ℚ) (c : Chapter) : ℤ × ℤ :=
  (max 0 (pyInt ((c.startOffset - segStart) * 1000)),
    pyInt ((c.startOffset - segStart) * 1000) + pyInt ((c.length.getD 60) * 1000))

/-- The chapter filter for one part:
`current_start <= c.get("StartOffset", 0) < end_time`. -/
def partChapters (segStart segEnd : ℚ) (chapters : List Chapter) : List Chapter :=
  chapters.filter fun c => decide (segStart ≤ c.startOffset) && decide (c.startOffset < segEnd)

/-- The chapter `(START, END)` pairs written into the metadata document
for one segment. -/
def segMetadataChapters (segStart segEnd : ℚ) (chapters : List Chapter) : List (ℤ × ℤ) :=
  (partChapters segStart segEnd chapters).map (chapterEntry segStart)

/-- Counterexample to C8 as stated: a chapter starting exactly at the
segment start with a negative probed length yields END = -1000 < 0, so
"neither value negative" fails without a nonnegative-length
hypothesis. -/
theorem C8_counterexample :
    segMetadataChapters 36000 72000 ([⟨"n", 36000, some (-1)⟩] : List Chapter)
      = [(0, -1000)] ∧ ((-1000 : ℤ) < 0) := by
  refine ⟨?_, by decide⟩
  have hfloor : Int.floor ((0:ℚ)) = 0 := Int.floor_zero
  have hceil : Int.ceil ((-1000:ℚ)) = -1000 := by
    rw [Int.ceil_eq_iff] <;> norm_num
  simp only [segMetadataChapters, partChapters, List.filter_cons,
    List.filter_nil, List.map_cons, List.map_nil]
  norm_num [chapterEntry, pyInt, hfloor, hceil]

/-- C8 (amended): every chapter inside `[segStart, segEnd)` whose
defaulted length is nonnegative appears in the segment metadata with
START the floored rebased millisecond offset (the 0-clamp is a no-op)
and END = that offset plus the floored millisecond length, both
nonnegative. -/
theorem C8_chapter_rebase (segStart segEnd : ℚ) (chapters : List Chapter) (c : Chapter)
    (hmem : c ∈ chapters) (h1 : segStart ≤ c.startOffset) (h2 : c.startOffset < segEnd)
    (hlen : 0 ≤ c.length.getD 60) :
    chapterEntry segStart c ∈ segMetadataChapters segStart segEnd chapters ∧
    (chapterEntry segStart c).1 = Int.floor ((c.startOffset - segStart) * 1000) ∧
    (chapterEntry segStart c).2
      = Int.floor ((c.startOffset - segStart) * 1000)
        + Int.floor ((c.length.getD 60) * 1000) ∧
    0 ≤ (chapterEntry segStart c).1 ∧ 0 ≤ (chapterEntry segStart c).2 := by
  have hoff : (0:ℚ) ≤ (c.startOffset - segStart) * 1000 := by nlinarith
  have hlen1000 : (0:ℚ) ≤ (c.length.getD 60) * 1000 := by nlinarith
  have hp1 : pyInt ((c.startOffset - segStart) * 1000)
      = Int.floor ((c.startOffset - segStart) * 1000) := by
    simp [pyInt, not_lt.2 hoff]
  have hp2 : pyInt ((c.length.getD 60) * 1000) = Int.floor ((c.length.getD 60) * 1000) := by
    simp [pyInt, not_lt.2 hlen1000]
  have hf1 : 0 ≤ Int.floor ((c.startOffset - segStart) * 1000) := Int.floor_nonneg.2 hoff
  have hf2 : 0 ≤ Int.floor ((c.length.getD 60) * 1000) := Int.floor_nonneg.2 hlen1000
  refine ⟨?_, ?_, ?_, ?_, ?_⟩
  · exact List.mem_map_of_mem _ (List.mem_filter.2 ⟨hmem, by simp [h1, h2]⟩)
  · simp [chapterEntry, hp1, max_eq_right hf1]
  · simp [chapterEntry, hp1, hp2]
  · simp [chapterEntry, hp1, max_eq_right hf1, hf1]
  · simp [chapterEntry, hp1, hp2]
    omega

/-- Witness for C8 at the spec fixture: a chapter at absolute offset
40000 inside a segment starting at 36000, with no explicit length. -/
theorem C8_chapter_rebase_witness :
    (⟨"x", 40000, none⟩ : Chapter) ∈ ([⟨"x", 40000, none⟩] : List Chapter) ∧
      (36000:ℚ) ≤ 40000 ∧ (40000:ℚ) < 72000 ∧
      (0:ℚ) ≤ ((⟨"x", 40000, none⟩ : Chapter)).length.getD 60 ∧
      (chapterEntry 36000 ⟨"x", 40000, none⟩
          ∈ segMetadataChapters 36000 72000 ([⟨"x", 40000, none⟩] : List Chapter) ∧
        (chapterEntry 36000 ⟨"x", 40000, none⟩).1
          = Int.floor ((((⟨"x", 40000, none⟩ : Chapter)).startOffset - 36000) * 1000) ∧
        (chapterEntry 36000 ⟨"x", 40000, none⟩).2
          = Int.floor ((((⟨"x", 40000, none⟩ : Chapter)).startOffset - 36000) * 1000)
            + Int.floor ((((⟨"x", 40000, none⟩ : Chapter)).length.getD 60) * 1000) ∧
        0 ≤ (chapterEntry 36000 ⟨"x", 40000, none⟩).1 ∧
        0 ≤ (chapterEntry 36000 ⟨"x", 40000, none⟩).2) :=
  ⟨List.mem_singleton.2 rfl, by norm_num, by norm_num, by norm_num,
    C8_chapter_rebase 36000 72000 ([⟨"x", 40000, none⟩] : List Chapter) ⟨"x", 40000, none⟩
      (List.mem_singleton.2 rfl) (by norm_num) (by norm_num) (by norm_num)⟩

/-! ### Duration probing (`ffmpeg.py` lines 94-119) -/

/-- Abstraction of one `ffprobe -show_format` invocation: `raised` is
any exception inside the `try` block (missing or corrupt file, JSON
parse error, float conversion); otherwise the tool exits with a return
code and a parsed duration (the `get` default 0 when the field is
absent). -/
inductive ProbeOutcome where
  | raised
  | exited (returncode : ℤ) (duration : ℚ)
deriving DecidableEq

/-- `get_duration_from_file`, over abstracted tool outcomes: total —
the `except` clause catches every in-`try` failure — returning 0 unless
the tool exited 0. -/
def get_duration_from_file : ProbeOutcome → ℚ
  | .raised => 0
  | .exited rc dur => if rc = 0 then dur else 0

/-- The caller fallback (`splitter.py` lines 40-43): a probed duration
of 0 is replaced with `LengthInMinutes * 60`. -/
def effectiveDuration (o : ProbeOutcome) (lengthInMinutes : ℚ) : ℚ :=
  if get_duration_from_file o = 0 then lengthInMinutes * 60
  else get_duration_from_file o

/-- C9 (confirmed): the duration prober is total over all tool
outcomes (never raises), returns 0 on an exception and on any non-zero
exit, and the caller falls back to `LengthInMinutes * 60` whenever it
returns 0. -/
theorem C9_duration_fallback (o : ProbeOutcome) (lengthInMinutes : ℚ)
    (h0 : get_duration_from_file o = 0) :
    get_duration_from_file ProbeOutcome.raised = 0 ∧
    (∀ rc dur, rc ≠ 0 → get_duration_from_file (.exited rc dur) = 0) ∧
    effectiveDuration o lengthInMinutes = lengthInMinutes * 60 := by
  refine ⟨rfl, ?_, ?_⟩
  · intro rc dur hrc
    simp [get_duration_from_file, hrc]
  · simp [effectiveDuration, h0]

/-- Witness for C9: a tool failure (non-zero exit 1 with garbage
duration 5) and the raised case, with catalog fallback of 30 min. -/
theorem C9_duration_fallback_witness :
    get_duration_from_file (.exited 1 5) = 0 ∧
      (get_duration_from_file ProbeOutcome.raised = 0 ∧
        (∀ rc dur, rc ≠ 0 → get_duration_from_file (.exited rc dur) = 0) ∧
        effectiveDuration ProbeOutcome.raised 30 = 30 * 60) := by
  have h := C9_duration_fallback ProbeOutcome.raised 30 rfl
  exact ⟨h.2.1 1 5 (by decide), h⟩

/-! ### Filename sanitization (`file_utils.py` lines 7-9) -/

/-- The character class of `re.sub(r'[\\/*?:"<>|]', "", name)`. -/
def invalidFilenameChars : List Char := ['\\', '/', '*', '?', ':', '"', '<', '>', '|']

/-- `sanitize_filename(name)`: remove every occurrence of the invalid
characters. -/
def sanitize_filename (name : String) : String :=
  ⟨name.data.filter fun ch => decide (ch ∉ invalidFilenameChars)⟩

/-- C10 (confirmed): `sanitize_filename` is idempotent and its result
contains none of the stripped characters. -/
theorem C10_sanitize_idempotent (name : String) :
    sanitize_filename (sanitize_filename name) = sanitize_filename name ∧
      ∀ ch ∈ (sanitize_filename name).data, ch ∉ invalidFilenameChars := by
  constructor
  · simp [sanitize_filename, List.filter_filter]
  · intro ch hch
    simp only [sanitize_filename, List.mem_filter] at hch
    exact of_decide_eq_true hch.2

/-- Witness for C10 at the concrete name `a:b`. -/
theorem C10_sanitize_idempotent_witness :
    sanitize_filename (sanitize_filename "a:b") = sanitize_filename "a:b" ∧
      (':' ∈ invalidFilenameChars) ∧ ':' ∉ (sanitize_filename "a:b").data :=
  ⟨(C10_sanitize_idempotent "a:b").1, by decide,
    fun h => (C10_sanitize_idempotent "a:b").2 ':' h (by decide)⟩

end AudibleSplit
